import Mathlib

/-!
Verification of the hybrid-memory retrieval engine against its specification.

The definitions below are a shallow embedding of the Python sources:

* `scripts/search_cache.py`            — the query-result cache (`SearchCache`);
* `scripts/self-memory/build_index.py` — the full index build (`IndexBuilder`);
* `scripts/self-memory/incremental_update.py` — the incremental index manager;
* `scripts/self-memory/hybrid_search.py`      — score fusion and ranking;
* `scripts/mem0_bridge_enhanced.py`    — the snapshot loader and bridge searcher.

Conventions used throughout:

* Python floats are modeled by rationals; where numpy would produce NaN
  (a zero denominator) the rational model yields `0`, and each theorem that
  touches such a case states the divergence on both readings.
* Unix timestamps are integers (whole seconds suffice for every claim).
* Python dicts are insertion-ordered association lists; `insertKey`,
  `eraseKey` and `updateKey` mirror `d[k] = v`, `del d[k]` and in-place
  mutation of a present key.
* The md5-based cache key is `md5(normalized)[:16]`; md5 is a fixed
  deterministic function of the normalized text, assumed collision-free by
  the spec, so the model uses the normalized text itself as the key.
* The external embedding provider is modeled by an `Option` response:
  `none` is a failed or timed-out call, `some v` a successful reply.
-/

namespace HybridMemory

/-! ## Ordered-dict primitives (Python dict semantics) -/

/-- Python `del d[k]` — removes the binding of `k`, keeping the order of the rest. -/
def eraseKey {κ β : Type} [DecidableEq κ] (k : κ) : List (κ × β) → List (κ × β)
  | [] => []
  | (k₁, v) :: rest => if k₁ = k then rest else (k₁, v) :: eraseKey k rest

/-- In-place overwrite of the value stored at a present key. -/
def updateKey {κ β : Type} [DecidableEq κ] (k : κ) (f : β → β) : List (κ × β) → List (κ × β)
  | [] => []
  | (k₁, v) :: rest => if k₁ = k then (k₁, f v) :: rest else (k₁, v) :: updateKey k f rest

/-- Python `d[k] = v` — overwrite in place when present, append when absent. -/
def insertKey {κ β : Type} [DecidableEq κ] (k : κ) (v : β) (l : List (κ × β)) : List (κ × β) :=
  if l.any (fun kv => kv.1 = k) then updateKey k (fun _ => v) l else l ++ [(k, v)]

/-! ## Stable insertion sort

`sortStable lt` reproduces Python `sorted`: the element being inserted moves
past `b` only when `lt a b` holds strictly, so elements comparing equal keep
their original relative order.  Any stable sort computes the same list, so
this is extensionally the `sorted(...)` of the source. -/

/-- Insert `a` into `l`, moving past exactly the elements `b` with `lt a b`. -/
def insertStable {α : Type} (lt : α → α → Bool) (a : α) : List α → List α
  | [] => [a]
  | b :: bs => if lt a b then b :: insertStable lt a bs else a :: b :: bs

/-- Stable insertion sort driven by the strict comparison `lt`. -/
def sortStable {α : Type} (lt : α → α → Bool) : List α → List α
  | [] => []
  | a :: as => insertStable lt a (sortStable lt as)

theorem insertStable_perm {α : Type} (lt : α → α → Bool) (a : α) (l : List α) :
    (insertStable lt a l).Perm (a :: l) := by
  induction l with
  | nil => simp [insertStable]
  | cons b bs ih =>
    simp only [insertStable]
    by_cases h : lt a b
    · simp only [h, if_pos]
      exact ((ih.cons b).trans (List.Perm.swap a b bs))
    · simp [h]

theorem sortStable_perm {α : Type} (lt : α → α → Bool) (l : List α) :
    (sortStable lt l).Perm l := by
  induction l with
  | nil => simp [sortStable]
  | cons a as ih =>
    exact (insertStable_perm lt a (sortStable lt as)).trans (ih.cons a)

theorem mem_insertStable {α : Type} {lt : α → α → Bool} {a x : α} {l : List α}
    (h : x ∈ insertStable lt a l) : x = a ∨ x ∈ l := by
  have := (insertStable_perm lt a l).mem_iff.mp h
  simpa using this

/-- Sortedness of stable insertion, for a comparison that is asymmetric and
whose negation is transitive.  `R x y` reads as `x may come before y`. -/
theorem insertStable_pairwise {α : Type} {lt : α → α → Bool}
    (hasymm : ∀ x y, lt x y = true → lt y x = false)
    (htrans : ∀ x y z, lt x y = false → lt y z = false → lt x z = false)
    {a : α} {l : List α} (h : l.Pairwise (fun x y => lt x y = false)) :
    (insertStable lt a l).Pairwise (fun x y => lt x y = false) := by
  induction l with
  | nil => simp [insertStable]
  | cons b bs ih =>
    rcases List.pairwise_cons.mp h with ⟨hb, hbs⟩
    simp only [insertStable]
    cases hcase : lt a b with
    | true =>
      simp only [hcase, if_true]
      refine List.pairwise_cons.mpr ⟨?_, ih hbs⟩
      intro x hx
      rcases mem_insertStable hx with rfl | hx
      · exact hasymm _ b hcase
      · exact hb x hx
    | false =>
      simp only [hcase, Bool.false_eq_true, if_false]
      refine List.pairwise_cons.mpr ⟨?_, h⟩
      intro x hx
      rcases List.mem_cons.mp hx with rfl | hx
      · exact hcase
      · exact htrans a b x hcase (hb x hx)

theorem sortStable_pairwise {α : Type} {lt : α → α → Bool}
    (hasymm : ∀ x y, lt x y = true → lt y x = false)
    (htrans : ∀ x y z, lt x y = false → lt y z = false → lt x z = false)
    (l : List α) :
    (sortStable lt l).Pairwise (fun x y => lt x y = false) := by
  induction l with
  | nil => simp [sortStable]
  | cons a as ih => exact insertStable_pairwise hasymm htrans ih

/-! ## ResultCache — `scripts/search_cache.py` -/

/-- ASCII case folding, the effect of Python `str.lower()` on the Latin
letters the tokenizer and cache keys care about. -/
def asciiToLower (c : Char) : Char :=
  if 'A' ≤ c ∧ c ≤ 'Z' then Char.ofNat (c.toNat + 32) else c

/-- Python `str.split()` with no separator: maximal whitespace-free runs,
leading and trailing whitespace dropped.  `acc` holds the reversed current run. -/
def splitWsAux : List Char → List Char → List (List Char)
  | [], [] => []
  | [], acc => [acc.reverse]
  | c :: rest, acc =>
    if c.isWhitespace then
      match acc with
      | [] => splitWsAux rest []
      | _ => acc.reverse :: splitWsAux rest []
    else splitWsAux rest (c :: acc)

/-- Rejoin word runs with single spaces, Python `' '.join(words)`. -/
def joinWords : List (List Char) → List Char
  | [] => []
  | [w] => w
  | w :: ws => w ++ ' ' :: joinWords ws

/-- Query normalization in `SearchCache._compute_hash`:
Python `' '.join(query.lower().split())` — lowercase, split on whitespace
runs, rejoin with single spaces. -/
def normalizeQuery (q : String) : String :=
  String.mk (joinWords (splitWsAux (q.data.map asciiToLower) []))

/-- The cache key of `SearchCache._compute_hash`: `md5(normalized)[:16]`.
md5 truncation is a fixed deterministic function of the normalized text and
the spec assumes it collision-free, so the model keys by the normalized text. -/
def compute_hash (q : String) : String := normalizeQuery q

/-- `CacheEntry` dataclass of `search_cache.py`.  `results` payloads are
opaque to every claim, so they are modeled as lists of strings. -/
structure CacheEntry where
  query_hash : String
  query : String
  results : List String
  timestamp : Int
  hit_count : Nat
  last_accessed : Int
deriving Repr, DecidableEq

/-- The running counters maintained by `SearchCache._update_stats`
(`hit_rate` is derived from `hits` and `misses` and not stored here). -/
structure CacheStats where
  hits : Nat
  misses : Nat
  adds : Nat
  total_queries : Nat
deriving Repr, DecidableEq

/-- In-memory state of a `SearchCache` instance. -/
structure SearchCache where
  cache : List (String × CacheEntry)
  max_size : Nat
  ttl_seconds : Int
  stats : CacheStats
deriving Repr, DecidableEq

/-- `SearchCache._update_stats`: bump the selected counters. -/
def update_stats (s : CacheStats) (hit miss add : Bool) : CacheStats :=
  { hits := s.hits + (if hit then 1 else 0)
    misses := s.misses + (if miss then 1 else 0)
    adds := s.adds + (if add then 1 else 0)
    total_queries := s.total_queries + (if hit || miss then 1 else 0) }

/-- Sort key of the eviction pass: the `(hit_count, last_accessed)` tuple. -/
def entryKey (e : CacheEntry) : Nat × Int := (e.hit_count, e.last_accessed)

/-- Lexicographic strict order on `(hit_count, last_accessed)` tuples. -/
def tupleLt (p q : Nat × Int) : Bool :=
  decide (p.1 < q.1) || (decide (p.1 = q.1) && decide (p.2 < q.2))

/-- Comparison used by `_save_cache`: entry `a` sorts after entry `b`
(descending order, `reverse=True`) exactly when its tuple is strictly smaller. -/
def evictLt (a b : String × CacheEntry) : Bool := tupleLt (entryKey a.2) (entryKey b.2)

/-- Expiry sweep at the top of `SearchCache._save_cache`: entries strictly
older than the ttl are deleted. -/
def liveEntries (now : Int) (c : SearchCache) : List (String × CacheEntry) :=
  c.cache.filter (fun kv => !(decide (now - kv.2.timestamp > c.ttl_seconds)))

/-- `SearchCache._save_cache`: drop expired entries, then, when the limit is
exceeded, keep only the first `max_size` entries of the list sorted descending
by `(hit_count, last_accessed)` (stable, Python `sorted(..., reverse=True)`). -/
def save_cache (now : Int) (c : SearchCache) : SearchCache :=
  { c with cache :=
      if (liveEntries now c).length > c.max_size then
        (sortStable evictLt (liveEntries now c)).take c.max_size
      else liveEntries now c }

/-- `SearchCache.get`: expired entries are deleted and count as misses; a live
entry is a hit, bumping `hit_count` and refreshing `last_accessed`. -/
def SearchCache.get (c : SearchCache) (now : Int) (q : String) :
    Option (List String) × SearchCache :=
  let h := compute_hash q
  match c.cache.lookup h with
  | some e =>
    if now - e.timestamp > c.ttl_seconds then
      (none, { c with cache := eraseKey h c.cache
                      stats := update_stats c.stats false true false })
    else
      (some e.results,
       { c with cache := updateKey h
                  (fun e₁ => { e₁ with hit_count := e₁.hit_count + 1, last_accessed := now })
                  c.cache
                stats := update_stats c.stats true false false })
  | none => (none, { c with stats := update_stats c.stats false true false })

/-- `SearchCache.set`: store a fresh entry with `hit_count = 1`, then run
`_save_cache` (expiry sweep plus eviction) and count an add. -/
def SearchCache.set (c : SearchCache) (now : Int) (q : String) (results : List String) :
    SearchCache :=
  let h := compute_hash q
  let e : CacheEntry :=
    { query_hash := h, query := q, results := results
      timestamp := now, hit_count := 1, last_accessed := now }
  let c₁ := save_cache now { c with cache := insertKey h e c.cache }
  { c₁ with stats := update_stats c₁.stats false false true }

/-! ## Association-list lemmas used by the cache claims -/

theorem lookup_eq_none_of_forall {β : Type} (k : String) (l : List (String × β))
    (h : ∀ p ∈ l, p.1 ≠ k) : l.lookup k = none := by
  induction l with
  | nil => rfl
  | cons p rest ih =>
    have hp : p.1 ≠ k := h p (by simp)
    have : (k == p.1) = false := beq_eq_false_iff_ne.mpr (Ne.symm hp)
    cases p with
    | mk k₁ v =>
      simp only [List.lookup, this]
      exact ih (fun p₁ hp₁ => h p₁ (by simp [hp₁]))

theorem lookup_eraseKey_self {β : Type} (k : String) (l : List (String × β))
    (hnd : (l.map Prod.fst).Nodup) : (eraseKey k l).lookup k = none := by
  induction l with
  | nil => rfl
  | cons p rest ih =>
    cases p with
    | mk k₁ v =>
      simp only [List.map_cons, List.nodup_cons] at hnd
      by_cases hk : k₁ = k
      · subst hk
        simp only [eraseKey, if_pos rfl]
        exact lookup_eq_none_of_forall k₁ rest
          (fun p hp => fun hc => hnd.1 (hc ▸ List.mem_map_of_mem Prod.fst hp))
      · have : (k == k₁) = false := beq_eq_false_iff_ne.mpr (Ne.symm hk)
        simp only [eraseKey, if_neg hk, List.lookup, this]
        exact ih hnd.2

theorem lookup_updateKey_const {β : Type} (k : String) (v : β) (l : List (String × β))
    (h : l.any (fun kv => kv.1 = k) = true) :
    (updateKey k (fun _ => v) l).lookup k = some v := by
  induction l with
  | nil => simp at h
  | cons p rest ih =>
    cases p with
    | mk k₁ w =>
      by_cases hk : k₁ = k
      · subst hk
        simp [updateKey, List.lookup]
      · have hbeq : (k == k₁) = false := beq_eq_false_iff_ne.mpr (Ne.symm hk)
        simp only [List.any_cons, decide_eq_true_eq, hk, Bool.false_or, false_or] at h
        simp only [updateKey, if_neg hk, List.lookup, hbeq]
        exact ih h

theorem lookup_append_self {β : Type} (k : String) (v : β) (l : List (String × β))
    (h : l.any (fun kv => kv.1 = k) = false) :
    (l ++ [(k, v)]).lookup k = some v := by
  induction l with
  | nil => simp [List.lookup]
  | cons p rest ih =>
    cases p with
    | mk k₁ w =>
      simp only [List.any_cons, Bool.or_eq_false_iff, decide_eq_false_iff_not] at h
      have hbeq : (k == k₁) = false := beq_eq_false_iff_ne.mpr (Ne.symm h.1)
      simp only [List.cons_append, List.lookup, hbeq]
      exact ih (by simpa using h.2)

theorem lookup_insertKey_self {β : Type} (k : String) (v : β) (l : List (String × β)) :
    (insertKey k v l).lookup k = some v := by
  unfold insertKey
  cases hany : l.any (fun kv => kv.1 = k) with
  | true => simpa [hany] using lookup_updateKey_const k v l hany
  | false => simpa [hany] using lookup_append_self k v l hany

theorem lookup_filter {β : Type} (k : String) (e : β) (p : String × β → Bool)
    (l : List (String × β)) (hfind : l.lookup k = some e) (hp : p (k, e) = true) :
    (l.filter p).lookup k = some e := by
  induction l with
  | nil => simp [List.lookup] at hfind
  | cons q rest ih =>
    cases q with
    | mk k₁ w =>
      by_cases hk : k = k₁
      · subst hk
        simp only [List.lookup, beq_self_eq_true] at hfind
        have hw : w = e := by simpa using hfind
        subst hw
        simp [List.filter, hp, List.lookup]
      · have hbeq : (k == k₁) = false := beq_eq_false_iff_ne.mpr hk
        simp only [List.lookup, hbeq] at hfind
        cases hcase : p (k₁, w) with
        | true => simpa [List.filter, hcase, List.lookup, hbeq] using ih hfind
        | false => simpa [List.filter, hcase] using ih hfind

theorem length_updateKey {β : Type} (k : String) (f : β → β) (l : List (String × β)) :
    (updateKey k f l).length = l.length := by
  induction l with
  | nil => rfl
  | cons p rest ih =>
    cases p with
    | mk k₁ v =>
      by_cases hk : k₁ = k <;> simp [updateKey, hk, ih]

theorem length_insertKey_le {β : Type} (k : String) (v : β) (l : List (String × β)) :
    (insertKey k v l).length ≤ l.length + 1 := by
  unfold insertKey
  cases hany : l.any (fun kv => kv.1 = k) <;> simp [length_updateKey]

/-! ## Lexicographic order facts for the eviction tuple -/

theorem tupleLt_asymm (p q : Nat × Int) (h : tupleLt p q = true) : tupleLt q p = false := by
  simp only [tupleLt, Bool.or_eq_true, Bool.and_eq_true, decide_eq_true_eq,
    Bool.or_eq_false_iff, Bool.and_eq_false_iff, decide_eq_false_iff_not] at *
  omega

theorem tupleLt_negtrans (p q r : Nat × Int) (h₁ : tupleLt p q = false)
    (h₂ : tupleLt q r = false) : tupleLt p r = false := by
  simp only [tupleLt, Bool.or_eq_false_iff, Bool.and_eq_false_iff,
    decide_eq_false_iff_not] at *
  omega

theorem tupleLt_of_not_lt_of_ne (p q : Nat × Int) (h : tupleLt p q = false) (hne : q ≠ p) :
    tupleLt q p = true := by
  have hne' : ¬(q.1 = p.1 ∧ q.2 = p.2) := fun hc => hne (Prod.ext hc.1 hc.2)
  simp only [tupleLt, Bool.or_eq_false_iff, Bool.and_eq_false_iff,
    decide_eq_false_iff_not] at h
  simp only [tupleLt, Bool.or_eq_true, Bool.and_eq_true, decide_eq_true_eq]
  omega

theorem evictLt_asymm (a b : String × CacheEntry) (h : evictLt a b = true) :
    evictLt b a = false := tupleLt_asymm _ _ h

theorem evictLt_negtrans (a b c : String × CacheEntry) (h₁ : evictLt a b = false)
    (h₂ : evictLt b c = false) : evictLt a c = false := tupleLt_negtrans _ _ _ h₁ h₂

/-! ## Claims C6, C7, C8 -/

/-- C6: whenever the cache holds more than `max_size` (unexpired) entries at
save time, the eviction pass keeps exactly the `max_size` entries whose
`(hit_count, last_accessed)` tuples are greatest — every evicted entry has a
tuple strictly below every survivor's (tuples pairwise distinct). -/
theorem save_cache_eviction_keeps_greatest (c : SearchCache) (now : Int)
    (hlive : ∀ kv ∈ c.cache, ¬(now - kv.2.timestamp > c.ttl_seconds))
    (hsize : c.cache.length > c.max_size)
    (hdist : c.cache.Pairwise (fun a b => entryKey a.2 ≠ entryKey b.2)) :
    (save_cache now c).cache = (sortStable evictLt c.cache).take c.max_size ∧
    (save_cache now c).cache.length = c.max_size ∧
    ∀ d ∈ (sortStable evictLt c.cache).drop c.max_size,
      ∀ e ∈ (save_cache now c).cache,
        tupleLt (entryKey d.2) (entryKey e.2) = true := by
  have hfilter : liveEntries now c = c.cache := by
    apply List.filter_eq_self.mpr
    intro a ha
    simpa using hlive a ha
  have hperm : (sortStable evictLt c.cache).Perm c.cache := sortStable_perm _ _
  have hlen : (sortStable evictLt c.cache).length = c.cache.length := hperm.length_eq
  have hcache : (save_cache now c).cache = (sortStable evictLt c.cache).take c.max_size := by
    simp only [save_cache, hfilter, if_pos hsize]
  refine ⟨hcache, ?_, ?_⟩
  · rw [hcache, List.length_take, hlen]
    omega
  · intro d hd e he
    rw [hcache] at he
    have hsorted : (sortStable evictLt c.cache).Pairwise (fun x y => evictLt x y = false) :=
      sortStable_pairwise evictLt_asymm evictLt_negtrans c.cache
    have hne : (sortStable evictLt c.cache).Pairwise
        (fun a b => entryKey a.2 ≠ entryKey b.2) :=
      (hperm.pairwise_iff (by intro x y h; exact h.symm)).mpr hdist
    have hsplit := List.take_append_drop c.max_size (sortStable evictLt c.cache)
    rw [← hsplit] at hsorted hne
    rcases List.pairwise_append.mp hsorted with ⟨-, -, hcross⟩
    rcases List.pairwise_append.mp hne with ⟨-, -, hcrossne⟩
    exact tupleLt_of_not_lt_of_ne _ _ (hcross e he d hd) (Ne.symm (hcrossne e he d hd))

/-- Witness for C6: `max_size = 2`, three distinct live entries inserted in the
order a, b, c; the evicted entry is b, whose `(hit_count, last_accessed)` tuple
`(1, 5)` is the lowest, even though a was inserted earlier. -/
theorem save_cache_eviction_keeps_greatest_witness :
    (save_cache 20
      { cache :=
          [("a", { query_hash := "a", query := "a", results := [], timestamp := 15
                   hit_count := 2, last_accessed := 1 }),
           ("b", { query_hash := "b", query := "b", results := [], timestamp := 16
                   hit_count := 1, last_accessed := 5 }),
           ("c", { query_hash := "c", query := "c", results := [], timestamp := 17
                   hit_count := 3, last_accessed := 7 })]
        max_size := 2, ttl_seconds := 100
        stats := { hits := 0, misses := 0, adds := 0, total_queries := 0 } }).cache =
    (sortStable evictLt
      [("a", { query_hash := "a", query := "a", results := [], timestamp := 15
               hit_count := 2, last_accessed := 1 }),
       ("b", { query_hash := "b", query := "b", results := [], timestamp := 16
               hit_count := 1, last_accessed := 5 }),
       ("c", { query_hash := "c", query := "c", results := [], timestamp := 17
               hit_count := 3, last_accessed := 7 })]).take 2 :=
  (save_cache_eviction_keeps_greatest _ 20 (by decide) (by decide) (by decide)).1

/-- C7: a `get` for an entry whose age strictly exceeds the ttl returns `none`,
removes the entry from the cache on that access, and records a miss in the
running statistics. -/
theorem get_expired_entry_is_removed_miss (c : SearchCache) (now : Int) (q : String)
    (e : CacheEntry)
    (hfind : c.cache.lookup (compute_hash q) = some e)
    (hexp : now - e.timestamp > c.ttl_seconds)
    (hnd : (c.cache.map Prod.fst).Nodup) :
    (c.get now q).1 = none ∧
    (c.get now q).2.cache = eraseKey (compute_hash q) c.cache ∧
    (c.get now q).2.cache.lookup (compute_hash q) = none ∧
    (c.get now q).2.stats.misses = c.stats.misses + 1 ∧
    (c.get now q).2.stats.hits = c.stats.hits := by
  have hget : c.get now q =
      (none, { c with cache := eraseKey (compute_hash q) c.cache
                      stats := update_stats c.stats false true false }) := by
    simp only [SearchCache.get, hfind, if_pos hexp]
  refine ⟨by rw [hget], by rw [hget], ?_, by simp [hget, update_stats], by simp [hget, update_stats]⟩
  rw [hget]
  exact lookup_eraseKey_self _ _ hnd

/-- Witness for C7: an entry created at time 0 with ttl 10 is expired at
time 11 and the `get` misses. -/
theorem get_expired_entry_is_removed_miss_witness :
    (SearchCache.get
      { cache := [("stale query", { query_hash := "stale query", query := "stale query"
                                    results := ["r"], timestamp := 0
                                    hit_count := 1, last_accessed := 0 })]
        max_size := 100, ttl_seconds := 10
        stats := { hits := 0, misses := 0, adds := 0, total_queries := 0 } }
      11 "stale Query").1 = none :=
  (get_expired_entry_is_removed_miss _ 11 "stale Query"
    { query_hash := "stale query", query := "stale query", results := ["r"]
      timestamp := 0, hit_count := 1, last_accessed := 0 }
    (by decide) (by decide) (by decide)).1

/-- C8 counterexample: with `max_size = 1` and an existing entry whose
`(hit_count, last_accessed)` tuple beats a fresh entry's `(1, now)`, the
`set` itself evicts the entry it just stored, so the immediately following
`get` of the very same query misses instead of returning the stored results. -/
theorem set_get_roundtrip_counterexample :
    ((SearchCache.set
        { cache := [("a", { query_hash := "a", query := "a", results := ["x"]
                            timestamp := 0, hit_count := 2, last_accessed := 0 })]
          max_size := 1, ttl_seconds := 100
          stats := { hits := 0, misses := 0, adds := 0, total_queries := 0 } }
        5 "b" ["r"]).get 5 "b").1 = none := by decide

/-- C8 (amended): provided the `set` does not overflow the cache (entry count
strictly below `max_size` before the set, so the fresh entry survives the
eviction pass), a `set` of query `q` followed before expiry by a `get` of any
query normalizing to the same key returns the stored results unchanged. -/
theorem set_get_roundtrip (c : SearchCache) (now now₂ : Int) (q q₂ : String)
    (results : List String)
    (hq : normalizeQuery q₂ = normalizeQuery q)
    (httl : 0 ≤ c.ttl_seconds)
    (hfresh : now₂ - now ≤ c.ttl_seconds)
    (hroom : c.cache.length < c.max_size) :
    ((c.set now q results).get now₂ q₂).1 = some results := by
  have hkey : compute_hash q₂ = compute_hash q := hq
  set e : CacheEntry :=
    { query_hash := compute_hash q, query := q, results := results
      timestamp := now, hit_count := 1, last_accessed := now } with he
  set c₁ : SearchCache := { c with cache := insertKey (compute_hash q) e c.cache } with hc₁
  have hlive : (liveEntries now c₁).length ≤ c.max_size := by
    calc (liveEntries now c₁).length ≤ c₁.cache.length := List.length_filter_le _ _
    _ ≤ c.cache.length + 1 := length_insertKey_le _ _ _
    _ ≤ c.max_size := by omega
  have hnotgt : ¬((liveEntries now c₁).length > c₁.max_size) := by
    have hms : c₁.max_size = c.max_size := rfl
    omega
  have hsave : (save_cache now c₁).cache = liveEntries now c₁ := by
    simp only [save_cache, if_neg hnotgt]
  have httl₁ : (0 : Int) ≤ c₁.ttl_seconds := httl
  have hfound : (liveEntries now c₁).lookup (compute_hash q) = some e := by
    apply lookup_filter _ _ _ _ (by simpa [hc₁] using lookup_insertKey_self (compute_hash q) e c.cache)
    have hts : e.timestamp = now := by rw [he]
    simp only [Bool.not_eq_true', decide_eq_false_iff_not, not_lt, hts]
    omega
  have hsetcache : (c.set now q results).cache = liveEntries now c₁ := by
    simp only [SearchCache.set, hsave, hc₁, he]
  have hsetttl : (c.set now q results).ttl_seconds = c.ttl_seconds := by
    simp only [SearchCache.set, save_cache]
  have hcond : ¬(now₂ - e.timestamp > c.ttl_seconds) := by
    have hts : e.timestamp = now := by rw [he]
    omega
  simp only [SearchCache.get, hkey, hsetcache, hsetttl, hfound, if_neg hcond]

/-- Witness for C8: storing under query Q and reading back under the
case-differing, whitespace-differing variant returns the stored results. -/
theorem set_get_roundtrip_witness :
    ((SearchCache.set
        { cache := [], max_size := 100, ttl_seconds := 86400
          stats := { hits := 0, misses := 0, adds := 0, total_queries := 0 } }
        0 "Memory  System" ["doc1", "doc2"]).get 3 "memory system").1 =
      some ["doc1", "doc2"] :=
  set_get_roundtrip _ 0 3 "Memory  System" "memory system" ["doc1", "doc2"]
    (by decide) (by decide) (by decide) (by decide)

/-! ## Tokenization — shared by `build_index.py`, `incremental_update.py`,
`hybrid_search.py` and `mem0_bridge_enhanced.py`

All four files tokenize with the same regular expression over the lowercased
text: single CJK ideographs, maximal runs of Latin letters, maximal runs of
digits; everything else is dropped.  (Python `\d` also matches non-ASCII
digit codepoints; the model uses ASCII digits, which is what the regex ever
sees in this corpus.) -/

/-- The CJK ideograph class of the tokenizer regex. -/
def isCJK (c : Char) : Bool := decide (0x4e00 ≤ c.toNat) && decide (c.toNat ≤ 0x9fa5)

/-- Single pass of `re.findall` for the token regex.  The state carries the
class (1 = letters, 2 = digits) and reversed characters of the open run. -/
def tokenizeAux : List Char → Option (Nat × List Char) → List String
  | [], none => []
  | [], some (_, acc) => [String.mk acc.reverse]
  | c :: rest, none =>
    if isCJK c then String.mk [c] :: tokenizeAux rest none
    else if c.isAlpha then tokenizeAux rest (some (1, [c]))
    else if c.isDigit then tokenizeAux rest (some (2, [c]))
    else tokenizeAux rest none
  | c :: rest, some (k, acc) =>
    if isCJK c then String.mk acc.reverse :: String.mk [c] :: tokenizeAux rest none
    else if c.isAlpha then
      if k = 1 then tokenizeAux rest (some (1, c :: acc))
      else String.mk acc.reverse :: tokenizeAux rest (some (1, [c]))
    else if c.isDigit then
      if k = 2 then tokenizeAux rest (some (2, c :: acc))
      else String.mk acc.reverse :: tokenizeAux rest (some (2, [c]))
    else String.mk acc.reverse :: tokenizeAux rest none

/-- `tokenize(text)`: the regex findall over the lowercased text. -/
def tokenize (text : String) : List String :=
  tokenizeAux (text.data.map asciiToLower) none

/-! ## DocumentStore and the index snapshot -/

/-- A corpus document as stored in `documents.json`.  `filename` carries the
display name (the `filename` key of `build_index.py`, the `title` key of
`incremental_update.py`); the remaining source keys (`size`, `mtime`,
`word_count`, `updated`) are metadata no claim depends on. -/
structure Doc where
  id : String
  filename : String
  path : String
  content : String
deriving Repr, DecidableEq

/-- An on-disk markdown file as seen by the incremental updater: its
workspace-relative path, `Path.stem` and `Path.name`, its content, and its
content hash as computed by `_compute_file_hash`. -/
structure MdFile where
  path : String
  stem : String
  name : String
  content : String
  hash : String
deriving Repr, DecidableEq

/-! ## C3 — `IncrementalIndexManager.scan_changes` -/

/-- `scan_changes` (incremental_update.py lines 92-123) over the prior
`file_hashes` map and the current corpus given as `(path, contentHash)`
pairs: a current path absent from the prior map is added; present with a
differing hash, modified; a prior path with no current file, deleted. -/
def scan_changes (previous current : List (String × String)) :
    List String × List String × List String :=
  let added :=
    (current.filter (fun pc => !previous.any (fun ph => ph.1 == pc.1))).map Prod.fst
  let modified :=
    (current.filter (fun pc =>
      match previous.lookup pc.1 with
      | some h => h != pc.2
      | none => false)).map Prod.fst
  let deleted :=
    (previous.filter (fun ph => !current.any (fun pc => pc.1 == ph.1))).map Prod.fst
  (added, modified, deleted)

theorem keys_nodup_unique {β : Type} {l : List (String × β)} {p : String} {a b : β}
    (hnd : (l.map Prod.fst).Nodup) (ha : (p, a) ∈ l) (hb : (p, b) ∈ l) : a = b := by
  induction l with
  | nil => simp at ha
  | cons q rest ih =>
    cases q with
    | mk k v =>
      simp only [List.map_cons, List.nodup_cons] at hnd
      simp only [List.mem_cons, Prod.mk.injEq] at ha hb
      rcases ha with ⟨rfl, rfl⟩ | ha₁
      · rcases hb with ⟨-, rfl⟩ | hb₁
        · rfl
        · exact absurd (List.mem_map_of_mem Prod.fst hb₁) hnd.1
      · rcases hb with ⟨rfl, rfl⟩ | hb₁
        · exact absurd (List.mem_map_of_mem Prod.fst ha₁) hnd.1
        · exact ih hnd.2 ha₁ hb₁

theorem lookup_mem {β : Type} {l : List (String × β)} {p : String} {a : β}
    (h : l.lookup p = some a) : (p, a) ∈ l := by
  induction l with
  | nil => simp [List.lookup] at h
  | cons q rest ih =>
    cases q with
    | mk k v =>
      by_cases hk : p = k
      · subst hk
        simp only [List.lookup, beq_self_eq_true] at h
        injection h with hv
        subst hv
        exact List.mem_cons_self _ _
      · have hbeq : (p == k) = false := beq_eq_false_iff_ne.mpr hk
        simp only [List.lookup, hbeq] at h
        exact List.mem_cons_of_mem _ (ih h)

theorem lookup_eq_some_of_mem {β : Type} {l : List (String × β)} {p : String} {a : β}
    (hnd : (l.map Prod.fst).Nodup) (h : (p, a) ∈ l) : l.lookup p = some a := by
  induction l with
  | nil => simp at h
  | cons q rest ih =>
    cases q with
    | mk k v =>
      simp only [List.map_cons, List.nodup_cons] at hnd
      simp only [List.mem_cons, Prod.mk.injEq] at h
      rcases h with ⟨rfl, rfl⟩ | h₁
      · simp [List.lookup]
      · have hk : p ≠ k := by
          rintro rfl
          exact hnd.1 (List.mem_map_of_mem Prod.fst h₁)
        have hbeq : (p == k) = false := beq_eq_false_iff_ne.mpr hk
        simp only [List.lookup, hbeq]
        exact ih hnd.2 h₁

/-- C3: the change scan partitions paths exactly as the spec states — a
current path absent from the prior map is added, one present with a differing
hash is modified, a prior path with no current file is deleted, a path with
an unchanged hash lands in none of the three sets — and on the concrete
instance with prior hashes A, B, C and current corpus A, B-changed, D it
yields added = D, modified = B, deleted = C. -/
theorem scan_changes_partitions (previous current : List (String × String))
    (hndc : (current.map Prod.fst).Nodup) :
    (∀ p, p ∈ (scan_changes previous current).1 ↔
        (∃ hc, (p, hc) ∈ current) ∧ ∀ hp, (p, hp) ∉ previous) ∧
    (∀ p, p ∈ (scan_changes previous current).2.1 ↔
        ∃ hc hp, (p, hc) ∈ current ∧ previous.lookup p = some hp ∧ hp ≠ hc) ∧
    (∀ p, p ∈ (scan_changes previous current).2.2 ↔
        (∃ hp, (p, hp) ∈ previous) ∧ ∀ hc, (p, hc) ∉ current) ∧
    (∀ p h, (p, h) ∈ current → previous.lookup p = some h →
        p ∉ (scan_changes previous current).1 ∧
        p ∉ (scan_changes previous current).2.1 ∧
        p ∉ (scan_changes previous current).2.2) ∧
    scan_changes [("memory/A.md", "h1"), ("memory/B.md", "h2"), ("memory/C.md", "h3")]
        [("memory/A.md", "h1"), ("memory/B.md", "h2x"), ("memory/D.md", "h4")] =
      (["memory/D.md"], ["memory/B.md"], ["memory/C.md"]) := by
  have hadded : ∀ p, p ∈ (scan_changes previous current).1 ↔
      (∃ hc, (p, hc) ∈ current) ∧ ∀ hp, (p, hp) ∉ previous := by
    intro p
    simp only [scan_changes, List.mem_map, List.mem_filter, Bool.not_eq_true',
      List.any_eq_false, beq_iff_eq]
    constructor
    · rintro ⟨⟨pp, hcv⟩, ⟨hmem, hnone⟩, rfl⟩
      exact ⟨⟨hcv, hmem⟩, fun hp hmemp => hnone (pp, hp) hmemp rfl⟩
    · rintro ⟨⟨hc, hmem⟩, hnone⟩
      refine ⟨(p, hc), ⟨hmem, fun ph hph heq => hnone ph.2 ?_⟩, rfl⟩
      have heq' : ph.1 = p := heq
      rw [← heq']
      simpa using hph
  have hmodified : ∀ p, p ∈ (scan_changes previous current).2.1 ↔
      ∃ hc hp, (p, hc) ∈ current ∧ previous.lookup p = some hp ∧ hp ≠ hc := by
    intro p
    simp only [scan_changes, List.mem_map, List.mem_filter]
    constructor
    · rintro ⟨⟨pp, hcv⟩, ⟨hmem, hmatch⟩, rfl⟩
      cases hlook : List.lookup pp previous with
      | none => rw [show ((pp, hcv) : String × String).1 = pp from rfl, hlook] at hmatch; simp at hmatch
      | some hp =>
        rw [show ((pp, hcv) : String × String).1 = pp from rfl, hlook] at hmatch
        exact ⟨hcv, hp, hmem, rfl, fun hcontra => by simp [hcontra] at hmatch⟩
    · rintro ⟨hc, hp, hmem, hlook, hne⟩
      refine ⟨(p, hc), ⟨hmem, ?_⟩, rfl⟩
      rw [show ((p, hc) : String × String).1 = p from rfl, hlook]
      simpa using hne
  have hdeleted : ∀ p, p ∈ (scan_changes previous current).2.2 ↔
      (∃ hp, (p, hp) ∈ previous) ∧ ∀ hc, (p, hc) ∉ current := by
    intro p
    simp only [scan_changes, List.mem_map, List.mem_filter, Bool.not_eq_true',
      List.any_eq_false, beq_iff_eq]
    constructor
    · rintro ⟨⟨pp, hpv⟩, ⟨hmem, hnone⟩, rfl⟩
      exact ⟨⟨hpv, hmem⟩, fun hc hmemc => hnone (pp, hc) hmemc rfl⟩
    · rintro ⟨⟨hp, hmem⟩, hnone⟩
      refine ⟨(p, hp), ⟨hmem, fun pc hpc heq => hnone pc.2 ?_⟩, rfl⟩
      have heq' : pc.1 = p := heq
      rw [← heq']
      simpa using hpc
  refine ⟨hadded, hmodified, hdeleted, ?_, by decide⟩
  intro p h hmem hlook
  refine ⟨?_, ?_, ?_⟩
  · rw [hadded]
    rintro ⟨-, hnone⟩
    exact hnone h (lookup_mem hlook)
  · rw [hmodified]
    rintro ⟨hc, hp, hmemc, hlookc, hne⟩
    rw [hlook] at hlookc
    injection hlookc with hph
    have h₂ : hc = h := keys_nodup_unique hndc hmemc hmem
    exact hne (hph.symm.trans h₂.symm)
  · rw [hdeleted]
    rintro ⟨-, hnone⟩
    exact hnone h hmem

/-- Witness for C3: the scan at the spec's concrete instance. -/
theorem scan_changes_partitions_witness :
    scan_changes [("memory/A.md", "h1"), ("memory/B.md", "h2"), ("memory/C.md", "h3")]
        [("memory/A.md", "h1"), ("memory/B.md", "h2x"), ("memory/D.md", "h4")] =
      (["memory/D.md"], ["memory/B.md"], ["memory/C.md"]) :=
  (scan_changes_partitions [] [] (by decide)).2.2.2.2

/-! ## VectorIndex — the embedding provider boundary

`none` models a failed or timed-out provider call (the `except` branch of the
Python `requests.post`), `some v` a successful reply. -/

/-- `IncrementalIndexManager._get_embedding` (incremental_update.py lines
72-85): on provider failure it returns the 1024-dim zero vector. -/
def get_embedding_incremental (resp : Option (List ℚ)) : List ℚ :=
  match resp with
  | some v => v
  | none => List.replicate 1024 0

/-- `get_embedding` of hybrid_search.py (lines 40-53), build_index.py (lines
49-64) and mem0_bridge_enhanced.py (lines 137-150): on provider failure it
returns the empty list, which callers test for truthiness. -/
def get_embedding_hybrid (resp : Option (List ℚ)) : List ℚ :=
  match resp with
  | some v => v
  | none => []

/-! ## C1 — full build and incremental update of the snapshot -/

/-- `IndexBuilder.build_bm25_index`: one token sequence per document, over
the filename plus content. -/
def build_tokenized_corpus (docs : List Doc) : List (List String) :=
  docs.map (fun d => tokenize (d.filename ++ " " ++ d.content))

/-- `IndexBuilder.build_vector_index` (build_index.py lines 108-128): one
embedding row per document in document order; an empty provider reply is
replaced by the 1024-dim zero placeholder row. -/
def build_vector_index (resp : Doc → Option (List ℚ)) (docs : List Doc) : List (List ℚ) :=
  docs.map (fun d =>
    let e := get_embedding_hybrid (resp d)
    if e.isEmpty then List.replicate 1024 0 else e)

/-- `IncrementalIndexManager.incremental_update` (incremental_update.py lines
160-228) after the existing snapshot has been loaded.  Inputs: the loaded
document list and embedding matrix, the `file_hashes` state, the scanned
`added`, `modified`, `deleted` changes, and the embedding of each changed
file (`emb f` is `_get_embedding(f.content[:1500])`).  Steps, in program
order: drop deleted paths from the document list and the hash state; drop
modified paths from the document list; append one new document and one new
embedding row per added or modified file and record its hash; re-tokenize
the whole resulting document list for the BM25 rebuild.  Output:
`(documents, embeddingRows, tokenizedCorpus, fileHashes)` as persisted.
Note that the loaded `embeddings` rows are only ever appended to — the rows
of deleted and modified documents are never removed. -/
def incremental_update (emb : MdFile → List ℚ)
    (documents : List Doc) (embeddings : List (List ℚ))
    (file_hashes : List (String × String))
    (added modified : List MdFile) (deletedPaths : List String) :
    List Doc × List (List ℚ) × List (List String) × List (String × String) :=
  let docs₁ := deletedPaths.foldl (fun ds p => ds.filter (fun d => d.path != p)) documents
  let hashes₁ := deletedPaths.foldl (fun hs p => eraseKey p hs) file_hashes
  let docs₂ := modified.foldl (fun ds f => ds.filter (fun d => d.path != f.path)) docs₁
  let new_files := added ++ modified
  let new_documents : List Doc :=
    new_files.map (fun f => { id := f.stem, filename := f.name, path := f.path, content := f.content })
  let new_embeddings := new_files.map emb
  let hashes₂ := new_files.foldl (fun hs f => insertKey f.path f.hash hs) hashes₁
  ((docs₂ ++ new_documents),
   (embeddings ++ new_embeddings),
   ((docs₂ ++ new_documents).map (fun d => tokenize d.content)),
   hashes₂)

/-- C1: the full build produces exactly one embedding row and one token
sequence per document, but the incremental updater violates the
rows-equals-documents invariant on deletion: starting from a consistent
two-document snapshot, deleting `memory/a.md` persists 1 document and a
1-entry tokenized corpus but an embedding matrix that still has 2 rows,
because the deleted document's row is never removed. -/
theorem snapshot_row_invariant_code_bug :
    (∀ (resp : Doc → Option (List ℚ)) (docs : List Doc),
        (build_vector_index resp docs).length = docs.length ∧
        (build_tokenized_corpus docs).length = docs.length) ∧
    ((incremental_update (fun _ => List.replicate 1024 0)
        [{ id := "a", filename := "a.md", path := "memory/a.md", content := "alpha doc" },
         { id := "b", filename := "b.md", path := "memory/b.md", content := "beta doc" }]
        [[1], [2]]
        [("memory/a.md", "h1"), ("memory/b.md", "h2")]
        [] [] ["memory/a.md"]).1.length = 1 ∧
      (incremental_update (fun _ => List.replicate 1024 0)
        [{ id := "a", filename := "a.md", path := "memory/a.md", content := "alpha doc" },
         { id := "b", filename := "b.md", path := "memory/b.md", content := "beta doc" }]
        [[1], [2]]
        [("memory/a.md", "h1"), ("memory/b.md", "h2")]
        [] [] ["memory/a.md"]).2.1.length = 2 ∧
      (incremental_update (fun _ => List.replicate 1024 0)
        [{ id := "a", filename := "a.md", path := "memory/a.md", content := "alpha doc" },
         { id := "b", filename := "b.md", path := "memory/b.md", content := "beta doc" }]
        [[1], [2]]
        [("memory/a.md", "h1"), ("memory/b.md", "h2")]
        [] [] ["memory/a.md"]).2.2.1.length = 1) := by
  refine ⟨fun resp docs => ⟨List.length_map _ _, List.length_map _ _⟩, ?_⟩
  refine ⟨by decide, by decide, by decide⟩

/-! ## C2 — persistence is not staged through temporary locations -/

/-- The artifacts of the persisted snapshot directory. -/
inductive Artifact
  | documentsJson
  | bm25Pkl
  | vectorNpy
  | metadataJson
  | indexHash
  | stateJson
deriving Repr, DecidableEq

/-- One write step of a persistence routine: the artifact written and
whether the write targets a temporary location (to be swapped in after all
artifacts are written) or the final artifact path directly. -/
structure WriteOp where
  artifact : Artifact
  toTemp : Bool
deriving Repr, DecidableEq

/-- The writes of incremental_update.py lines 215-228 in program order:
`documents.json`, `bm25_index.pkl`, `vector_index.npy`,
`incremental_state.json`, each opened for writing at its final path. -/
def incrementalPersistTrace : List WriteOp :=
  [⟨.documentsJson, false⟩, ⟨.bm25Pkl, false⟩, ⟨.vectorNpy, false⟩, ⟨.stateJson, false⟩]

/-- The writes of `IndexBuilder.save_index` (build_index.py lines 130-181)
in program order, each at its final path. -/
def buildPersistTrace : List WriteOp :=
  [⟨.bm25Pkl, false⟩, ⟨.vectorNpy, false⟩, ⟨.metadataJson, false⟩,
   ⟨.documentsJson, false⟩, ⟨.indexHash, false⟩]

/-- What a reader observes of the snapshot between writes: the length of the
document list in `documents.json` and the row count of `vector_index.npy`. -/
structure DiskState where
  docLen : Nat
  rowLen : Nat
deriving Repr, DecidableEq

/-- Effect of one write on a reader's view: a write to a final path replaces
that artifact immediately; a temporary-location write would be invisible. -/
def applyWrite (newSnap : DiskState) (s : DiskState) (w : WriteOp) : DiskState :=
  if w.toTemp then s
  else
    match w.artifact with
    | .documentsJson => { s with docLen := newSnap.docLen }
    | .vectorNpy => { s with rowLen := newSnap.rowLen }
    | _ => s

/-- All reader-observable intermediate states of a persistence trace. -/
def observableStates (newSnap old : DiskState) (trace : List WriteOp) : List DiskState :=
  (List.range (trace.length + 1)).map (fun k => (trace.take k).foldl (applyWrite newSnap) old)

/-- C2 counterexample: the claim that every updated artifact is first written
to a temporary location is false of both persistence routines — the very
first write of each trace, and in particular the `documents.json` write of
the incremental updater, goes directly to the final artifact path. -/
theorem atomic_persist_counterexample :
    (incrementalPersistTrace.all fun w => w.toTemp) = false ∧
    (buildPersistTrace.all fun w => w.toTemp) = false ∧
    WriteOp.mk .documentsJson false ∈ incrementalPersistTrace ∧
    WriteOp.mk .vectorNpy false ∈ incrementalPersistTrace := by decide

/-- C2 (amended): both persistence routines write every artifact directly to
its final path in program order, with no temporary staging; consequently,
whenever an update changes the document count, the reader-observable state
between the `documents.json` write and the `vector_index.npy` write of the
incremental updater has a document list length that disagrees with the
matrix row count. -/
theorem persist_not_atomic (old newSnap : DiskState)
    (hcons : old.docLen = old.rowLen) (hchange : newSnap.docLen ≠ old.docLen) :
    (incrementalPersistTrace.all fun w => !w.toTemp) = true ∧
    (buildPersistTrace.all fun w => !w.toTemp) = true ∧
    ∃ s ∈ observableStates newSnap old incrementalPersistTrace, s.docLen ≠ s.rowLen := by
  refine ⟨by decide, by decide, ⟨⟨newSnap.docLen, old.rowLen⟩, ?_, ?_⟩⟩
  · have hobs : observableStates newSnap old incrementalPersistTrace =
        [old, ⟨newSnap.docLen, old.rowLen⟩, ⟨newSnap.docLen, old.rowLen⟩,
         ⟨newSnap.docLen, newSnap.rowLen⟩, ⟨newSnap.docLen, newSnap.rowLen⟩] := rfl
    rw [hobs]
    simp
  · simp only []
    omega

/-- Witness for C2: persisting a 3-document snapshot over a consistent
2-document snapshot exposes an intermediate state with 3 documents but 2
matrix rows. -/
theorem persist_not_atomic_witness :
    ∃ s ∈ observableStates ⟨3, 3⟩ ⟨2, 2⟩ incrementalPersistTrace, s.docLen ≠ s.rowLen :=
  (persist_not_atomic ⟨2, 2⟩ ⟨3, 3⟩ rfl (by decide)).2.2

/-! ## FusionRanker — score normalization (hybrid_search.py lines 97-114,
mem0_bridge_enhanced.py lines 172-184)

`listMax`/`listMin` are numpy `.max()`/`.min()` over a nonempty array (the
`0` returned on `[]` is a sentinel never reached by the callers, which guard
on a nonempty corpus). -/

def listMax : List ℚ → ℚ
  | [] => 0
  | a :: as => as.foldl max a

def listMin : List ℚ → ℚ
  | [] => 0
  | a :: as => as.foldl min a

/-- BM25 normalization, identical in both searchers: divide by the maximum
when positive, otherwise leave scores unchanged. -/
def bm25Normalize (s : List ℚ) : List ℚ :=
  if 0 < listMax s then s.map (fun x => x / listMax s) else s

/-- Vector-score normalization of `HybridSearch.search` (hybrid_search.py
lines 104-108): the guard tests `max > 0`, not `max > min`, and then
evaluates `(x - min) / (max - min)`.  When all scores are equal and positive
the denominator is zero: numpy produces NaN there; the rational model
produces 0.  On either reading the result is not the unchanged scores. -/
def vectorNormalizeHybrid (v : List ℚ) : List ℚ :=
  if 0 < listMax v then v.map (fun x => (x - listMin v) / (listMax v - listMin v)) else v

/-- Vector-score normalization of `SelfMemorySearcher.search`
(mem0_bridge_enhanced.py lines 178-181): the guard is `max > min`, so the
all-equal case is a genuine no-op. -/
def vectorNormalizeBridge (v : List ℚ) : List ℚ :=
  if listMin v < listMax v then v.map (fun x => (x - listMin v) / (listMax v - listMin v)) else v

theorem le_foldl_max (b : ℚ) (l : List ℚ) : b ≤ l.foldl max b := by
  induction l generalizing b with
  | nil => simp
  | cons a as ih => exact le_trans (le_max_left b a) (ih (max b a))

theorem mem_le_foldl_max {x : ℚ} {l : List ℚ} (h : x ∈ l) :
    ∀ b, x ≤ l.foldl max b := by
  induction l with
  | nil => simp at h
  | cons a as ih =>
    intro b
    rcases List.mem_cons.mp h with rfl | hx
    · exact le_trans (le_max_right b x) (le_foldl_max _ _)
    · exact ih hx (max b a)

theorem mem_le_listMax {x : ℚ} {l : List ℚ} (h : x ∈ l) : x ≤ listMax l := by
  cases l with
  | nil => simp at h
  | cons a as =>
    rcases List.mem_cons.mp h with rfl | hx
    · exact le_foldl_max _ _
    · exact mem_le_foldl_max hx a

theorem foldl_min_le (b : ℚ) (l : List ℚ) : l.foldl min b ≤ b := by
  induction l generalizing b with
  | nil => simp
  | cons a as ih => exact le_trans (ih (min b a)) (min_le_left b a)

theorem foldl_min_le_mem {x : ℚ} {l : List ℚ} (h : x ∈ l) :
    ∀ b, l.foldl min b ≤ x := by
  induction l with
  | nil => simp at h
  | cons a as ih =>
    intro b
    rcases List.mem_cons.mp h with rfl | hx
    · simp only [List.foldl_cons]
      exact le_trans (foldl_min_le (min b x) as) (min_le_right b x)
    · exact ih hx (min b a)

theorem listMin_le_mem {x : ℚ} {l : List ℚ} (h : x ∈ l) : listMin l ≤ x := by
  cases l with
  | nil => simp at h
  | cons a as =>
    rcases List.mem_cons.mp h with rfl | hx
    · exact foldl_min_le _ _
    · exact foldl_min_le_mem hx a

/-- C5 counterexample: a single-document corpus with a positive vector score
passes the `max > 0` guard of hybrid_search.py with `min = max`, so the code
divides by zero — the output (0 in the rational model, NaN in numpy) is not
the unchanged scores the claim requires. -/
theorem vector_normalization_counterexample :
    vectorNormalizeHybrid [(1 : ℚ)] ≠ [(1 : ℚ)] ∧
    vectorNormalizeHybrid [(1 : ℚ)] = [0] := by
  have h : vectorNormalizeHybrid [(1 : ℚ)] = [0] := by
    norm_num [vectorNormalizeHybrid, listMax, listMin]
  refine ⟨?_, h⟩
  rw [h]
  decide

/-- C5 (amended): normalization in hybrid_search.py is a no-op only when the
maximum is non-positive; when `min < max` (and `max > 0`) it min-max maps
into `[0, 1]`; when all scores are equal and positive it evaluates a
zero-denominator division (NaN in numpy, 0 in the rational model) instead of
returning the scores unchanged.  In mem0_bridge_enhanced.py the guard is
`max > min`, so there the all-equal case is a genuine no-op and otherwise
scores map into `[0, 1]`. -/
theorem vector_normalization_guard (v : List ℚ) :
    (listMax v ≤ 0 → vectorNormalizeHybrid v = v) ∧
    (0 < listMax v → listMin v < listMax v →
      ∀ x ∈ vectorNormalizeHybrid v, 0 ≤ x ∧ x ≤ 1) ∧
    (0 < listMax v → listMin v = listMax v →
      vectorNormalizeHybrid v = v.map (fun _ => 0)) ∧
    (listMin v = listMax v → vectorNormalizeBridge v = v) ∧
    (listMin v < listMax v → ∀ x ∈ vectorNormalizeBridge v, 0 ≤ x ∧ x ≤ 1) := by
  have hbounds : listMin v < listMax v →
      ∀ x ∈ v.map (fun x => (x - listMin v) / (listMax v - listMin v)), 0 ≤ x ∧ x ≤ 1 := by
    intro hlt x hx
    rcases List.mem_map.mp hx with ⟨y, hy, rfl⟩
    have h₁ : listMin v ≤ y := listMin_le_mem hy
    have h₂ : y ≤ listMax v := mem_le_listMax hy
    have hpos : (0 : ℚ) < listMax v - listMin v := by linarith
    constructor
    · exact div_nonneg (by linarith) (le_of_lt hpos)
    · rw [div_le_one hpos]
      linarith
  refine ⟨?_, ?_, ?_, ?_, ?_⟩
  · intro h
    simp only [vectorNormalizeHybrid, if_neg (not_lt.mpr h)]
  · intro hpos hlt x hx
    rw [vectorNormalizeHybrid, if_pos hpos] at hx
    exact hbounds hlt x hx
  · intro hpos heq
    rw [vectorNormalizeHybrid, if_pos hpos]
    apply List.map_congr_left
    intro y hy
    rw [heq, sub_self, div_zero]
  · intro heq
    simp only [vectorNormalizeBridge, heq, lt_self_iff_false, if_false]
  · intro hlt x hx
    rw [vectorNormalizeBridge, if_pos hlt] at hx
    exact hbounds hlt x hx

/-- Witness for C5: the non-positive hybrid case, the degenerate
all-equal-positive hybrid case, and the all-equal bridge case, at concrete
one-element score vectors. -/
theorem vector_normalization_guard_witness :
    vectorNormalizeHybrid [-(1 : ℚ)] = [-(1 : ℚ)] ∧
    vectorNormalizeHybrid [(1 : ℚ)] = [(1 : ℚ)].map (fun _ => 0) ∧
    vectorNormalizeBridge [(1 : ℚ)] = [(1 : ℚ)] :=
  ⟨(vector_normalization_guard [-(1 : ℚ)]).1 (by decide),
   (vector_normalization_guard [(1 : ℚ)]).2.2.1 (by decide) (by decide),
   (vector_normalization_guard [(1 : ℚ)]).2.2.2.1 (by decide)⟩

/-! ## C4 — selection and tie order: `np.argsort(combined)[::-1][:top_k]`

numpy argsort returns, for this regime, the ascending stable order: equal
scores keep ascending index order.  The code then reverses the whole order
and takes the first `top_k`, so equal scores end up in DESCENDING index
order.  `argLt` moves the inserted pair past exactly the pairs with strictly
smaller scores, which makes `sortStable argLt` that ascending stable order. -/

/-- Index-score pairs of the score array, indices counting from `i`. -/
def enumFrom : Nat → List ℚ → List (Nat × ℚ)
  | _, [] => []
  | i, s :: rest => (i, s) :: enumFrom (i + 1) rest

/-- Comparison backing ascending `np.argsort` over index-score pairs. -/
def argLt (a b : Nat × ℚ) : Bool := decide (b.2 < a.2)

/-- `np.argsort(scores)` as index-score pairs: ascending score order, ties
in ascending index order. -/
def argsortPairs (scores : List ℚ) : List (Nat × ℚ) :=
  sortStable argLt (enumFrom 0 scores)

/-- `np.argsort(combined_scores)[::-1][:top_k]` (hybrid_search.py line 117,
mem0_bridge_enhanced.py line 186), each index paired with its score. -/
def topPairs (scores : List ℚ) (k : Nat) : List (Nat × ℚ) :=
  (argsortPairs scores).reverse.take k

/-- One returned search result: corpus index, fused score, 1-based rank
(hybrid_search.py lines 119-128). -/
structure RankedResult where
  doc_index : Nat
  combined_score : ℚ
  rank : Nat
deriving Repr, DecidableEq

/-- The result-assembly loop: `rank` is `len(results) + 1` at append time. -/
def attachRanks : Nat → List (Nat × ℚ) → List RankedResult
  | _, [] => []
  | r, p :: rest => ⟨p.1, p.2, r⟩ :: attachRanks (r + 1) rest

/-- The selection step of `HybridSearch.search` and
`SelfMemorySearcher.search`: descending fused order, top-k, ranks 1..k. -/
def hybridSelect (scores : List ℚ) (k : Nat) : List RankedResult :=
  attachRanks 1 (topPairs scores k)

/-- Weighted score fusion (hybrid_search.py lines 110-114). -/
def fuseScores (bm25_weight vector_weight : ℚ) (bm25_norm vector_norm : List ℚ) : List ℚ :=
  List.zipWith (fun a b => bm25_weight * a + vector_weight * b) bm25_norm vector_norm

/-- The order `argsortPairs` produces: ascending score, ties by index. -/
def ascTie (a b : Nat × ℚ) : Prop := a.2 < b.2 ∨ (a.2 = b.2 ∧ a.1 < b.1)

theorem mem_enumFrom_le {i : Nat} {l : List ℚ} {x : Nat × ℚ}
    (h : x ∈ enumFrom i l) : i ≤ x.1 := by
  induction l generalizing i with
  | nil => simp [enumFrom] at h
  | cons s rest ih =>
    simp only [enumFrom] at h
    rcases List.mem_cons.mp h with rfl | hx
    · exact le_refl _
    · exact le_trans (Nat.le_succ i) (ih hx)

theorem enumFrom_fst_lt (i : Nat) (l : List ℚ) :
    (enumFrom i l).Pairwise (fun a b => a.1 < b.1) := by
  induction l generalizing i with
  | nil => simp [enumFrom]
  | cons s rest ih =>
    simp only [enumFrom]
    refine List.pairwise_cons.mpr ⟨?_, ih (i + 1)⟩
    intro x hx
    exact lt_of_lt_of_le (Nat.lt_succ_self i) (mem_enumFrom_le hx)

theorem enumFrom_length (i : Nat) (l : List ℚ) : (enumFrom i l).length = l.length := by
  induction l generalizing i with
  | nil => rfl
  | cons s rest ih => simp [enumFrom, ih]

theorem insertStable_argLt_ascTie {a : Nat × ℚ} {l : List (Nat × ℚ)}
    (hidx : ∀ x ∈ l, a.1 < x.1) (h : l.Pairwise ascTie) :
    (insertStable argLt a l).Pairwise ascTie := by
  induction l with
  | nil => simp [insertStable]
  | cons b bs ih =>
    rcases List.pairwise_cons.mp h with ⟨hb, hbs⟩
    simp only [insertStable]
    cases hcase : argLt a b with
    | true =>
      have hblt : b.2 < a.2 := by simpa [argLt] using hcase
      simp only [hcase, if_true]
      refine List.pairwise_cons.mpr
        ⟨?_, ih (fun x hx => hidx x (List.mem_cons_of_mem _ hx)) hbs⟩
      intro x hx
      rcases mem_insertStable hx with rfl | hx
      · exact Or.inl hblt
      · exact hb x hx
    | false =>
      have hble : a.2 ≤ b.2 := by
        have := of_decide_eq_false hcase
        exact le_of_not_lt this
      simp only [hcase, Bool.false_eq_true, if_false]
      refine List.pairwise_cons.mpr ⟨?_, h⟩
      intro x hx
      rcases List.mem_cons.mp hx with rfl | hx
      · rcases lt_or_eq_of_le hble with hlt | heq
        · exact Or.inl hlt
        · exact Or.inr ⟨heq, hidx _ (List.mem_cons_self _ _)⟩
      · rcases hb x hx with hlt | ⟨heq, hidxlt⟩
        · exact Or.inl (lt_of_le_of_lt hble hlt)
        · rcases lt_or_eq_of_le hble with hlt2 | heq2
          · exact Or.inl (heq ▸ hlt2)
          · exact Or.inr ⟨heq2.trans heq, hidx x (List.mem_cons_of_mem _ hx)⟩

theorem argsortPairs_pairwise (scores : List ℚ) :
    (argsortPairs scores).Pairwise ascTie := by
  suffices hgen : ∀ l : List (Nat × ℚ), l.Pairwise (fun a b => a.1 < b.1) →
      (sortStable argLt l).Pairwise ascTie from
    hgen _ (enumFrom_fst_lt 0 scores)
  intro l
  induction l with
  | nil =>
    intro hp
    simp [sortStable]
  | cons a as ih =>
    intro hp
    rcases List.pairwise_cons.mp hp with ⟨ha, has⟩
    exact insertStable_argLt_ascTie
      (fun x hx => ha x ((sortStable_perm argLt as).mem_iff.mp hx))
      (ih has)

theorem mem_attachRanks {r : Nat} {l : List (Nat × ℚ)} {y : RankedResult}
    (h : y ∈ attachRanks r l) :
    ∃ q ∈ l, y.doc_index = q.1 ∧ y.combined_score = q.2 := by
  induction l generalizing r with
  | nil => simp [attachRanks] at h
  | cons p rest ih =>
    simp only [attachRanks] at h
    rcases List.mem_cons.mp h with rfl | hx
    · exact ⟨p, List.mem_cons_self _ _, rfl, rfl⟩
    · rcases ih hx with ⟨q, hq, h₁, h₂⟩
      exact ⟨q, List.mem_cons_of_mem _ hq, h₁, h₂⟩

theorem attachRanks_pairwise {l : List (Nat × ℚ)} {r : Nat}
    (h : l.Pairwise (fun a b => ascTie b a)) :
    (attachRanks r l).Pairwise (fun x y =>
      y.combined_score < x.combined_score ∨
        (x.combined_score = y.combined_score ∧ y.doc_index < x.doc_index)) := by
  induction l generalizing r with
  | nil => simp [attachRanks]
  | cons p rest ih =>
    rcases List.pairwise_cons.mp h with ⟨hp, hrest⟩
    simp only [attachRanks]
    refine List.pairwise_cons.mpr ⟨?_, ih hrest⟩
    intro y hy
    rcases mem_attachRanks hy with ⟨q, hq, h₁, h₂⟩
    rcases hp q hq with hlt | ⟨heq, hidx⟩
    · exact Or.inl (by rw [h₂]; exact hlt)
    · exact Or.inr ⟨by rw [h₂]; exact heq.symm, by rw [h₁]; exact hidx⟩

theorem attachRanks_length (r : Nat) (l : List (Nat × ℚ)) :
    (attachRanks r l).length = l.length := by
  induction l generalizing r with
  | nil => rfl
  | cons p rest ih => simp [attachRanks, ih]

theorem attachRanks_rank (l : List (Nat × ℚ)) :
    ∀ (r i : Nat) (h : i < (attachRanks r l).length),
      ((attachRanks r l).get ⟨i, h⟩).rank = r + i := by
  induction l with
  | nil =>
    intro r i h
    simp [attachRanks] at h
  | cons p rest ih =>
    intro r i h
    cases i with
    | zero => rfl
    | succ n =>
      have hn : n < (attachRanks (r + 1) rest).length := by
        simpa [attachRanks] using h
      calc ((attachRanks r (p :: rest)).get ⟨n + 1, h⟩).rank
          = ((attachRanks (r + 1) rest).get ⟨n, hn⟩).rank := by
            simp [attachRanks]
        _ = (r + 1) + n := ih (r + 1) n hn
        _ = r + (n + 1) := by omega

theorem hybridSelect_length (scores : List ℚ) (k : Nat) :
    (hybridSelect scores k).length = min k scores.length := by
  have hsort : (argsortPairs scores).length = scores.length := by
    unfold argsortPairs
    rw [(sortStable_perm argLt (enumFrom 0 scores)).length_eq, enumFrom_length]
  simp [hybridSelect, topPairs, attachRanks_length, List.length_take,
    List.length_reverse, hsort]

/-- C4 counterexample: with two documents of equal fused score, the code
ranks document 1 — the later one — first (`np.argsort` ascending gives
`[0, 1]`, reversed `[1, 0]`), while the claim's stable tie-breaking by
original corpus order predicts document 0 first. -/
theorem ranking_tie_order_counterexample :
    (hybridSelect [(1 : ℚ), 1] 2).map (fun r => r.doc_index) = [1, 0] ∧
    (hybridSelect [(1 : ℚ), 1] 2).map (fun r => r.doc_index) ≠ [0, 1] := by decide

/-- C4 (amended): the fused ranking sorts in strictly descending fused-score
order with ties broken by DESCENDING corpus index (the later document comes
first), assigns ranks 1..K in output order, and returns the top
`min k n` results; it is a pure function of the score list, so repeated
runs with identical inputs produce identical ranked lists. -/
theorem ranking_desc_ties_later_first (scores : List ℚ) (k : Nat) :
    (hybridSelect scores k).Pairwise (fun x y =>
      y.combined_score < x.combined_score ∨
        (x.combined_score = y.combined_score ∧ y.doc_index < x.doc_index)) ∧
    (∀ (i : Nat) (h : i < (hybridSelect scores k).length),
        ((hybridSelect scores k).get ⟨i, h⟩).rank = i + 1) ∧
    (hybridSelect scores k).length = min k scores.length := by
  refine ⟨?_, ?_, hybridSelect_length scores k⟩
  · apply attachRanks_pairwise
    apply List.Pairwise.sublist (List.take_sublist _ _)
    exact List.pairwise_reverse.mpr (argsortPairs_pairwise scores)
  · intro i h
    exact (attachRanks_rank (topPairs scores k) 1 i h).trans (Nat.add_comm 1 i)

/-- Witness for C4: on a concrete three-document score list the first
returned result carries rank 1. -/
theorem ranking_desc_ties_later_first_witness :
    ((hybridSelect [(3 : ℚ), 1, 2] 2).get ⟨0, by decide⟩).rank = 0 + 1 :=
  (ranking_desc_ties_later_first [(3 : ℚ), 1, 2] 2).2.1 0 (by decide)

/-! ## C9 — provider-failure degradation in the search pipeline -/

/-- The vector-scoring pass of `HybridSearch.search` (hybrid_search.py lines
78-95), with the cosine-similarity kernel `cos` abstract (its square roots
have no exact rational model).  A failed query embedding — the empty reply —
yields a zero score for every document without further provider calls; a
document whose own embedding call failed contributes similarity 0. -/
def hybridVectorScores (cos : List ℚ → List ℚ → ℚ)
    (queryResp : Option (List ℚ)) (docResps : List (Option (List ℚ))) : List ℚ :=
  if (get_embedding_hybrid queryResp).isEmpty then
    List.replicate docResps.length 0
  else
    docResps.map (fun r =>
      if (get_embedding_hybrid r).isEmpty then 0
      else cos (get_embedding_hybrid queryResp) (get_embedding_hybrid r))

/-- Fused scores of `HybridSearch.search` (lines 97-114). -/
def hybridCombine (bm25_weight vector_weight : ℚ) (bm25_scores vector_scores : List ℚ) :
    List ℚ :=
  fuseScores bm25_weight vector_weight (bm25Normalize bm25_scores)
    (vectorNormalizeHybrid vector_scores)

theorem foldl_max_replicate_zero (m : Nat) :
    (List.replicate m (0 : ℚ)).foldl max 0 = 0 := by
  induction m with
  | zero => rfl
  | succ k ih => simpa [List.replicate_succ, max_self] using ih

theorem listMax_replicate_zero (n : Nat) : listMax (List.replicate n (0 : ℚ)) = 0 := by
  cases n with
  | zero => rfl
  | succ m =>
    simp only [List.replicate_succ, listMax]
    exact foldl_max_replicate_zero m

theorem vectorNormalizeHybrid_zeros (n : Nat) :
    vectorNormalizeHybrid (List.replicate n 0) = List.replicate n 0 := by
  unfold vectorNormalizeHybrid
  rw [if_neg]
  rw [listMax_replicate_zero]
  exact lt_irrefl 0

theorem bm25Normalize_length (s : List ℚ) : (bm25Normalize s).length = s.length := by
  unfold bm25Normalize
  split <;> simp

theorem zipWith_replicate_right {α β γ : Type} (f : α → β → γ) (c : β) :
    ∀ (l : List α) (n : Nat), l.length = n →
      List.zipWith f l (List.replicate n c) = l.map (fun a => f a c) := by
  intro l
  induction l with
  | nil =>
    intro n h
    simp
  | cons a as ih =>
    intro n h
    cases n with
    | zero => simp at h
    | succ m =>
      simp only [List.replicate_succ, List.zipWith_cons_cons, List.map_cons]
      rw [ih m (by simpa using h)]

/-- C9 counterexample: on a failed provider call, `get_embedding` of
hybrid_search.py (and build_index.py and the bridge searcher) returns the
empty list, not a zero vector; only the incremental updater's
`_get_embedding` returns the 1024-dim zero vector. -/
theorem zero_vector_fallback_counterexample :
    get_embedding_hybrid none = [] ∧
    get_embedding_hybrid none ≠ List.replicate 1024 0 ∧
    get_embedding_incremental none = List.replicate 1024 0 := by
  refine ⟨rfl, ?_, rfl⟩
  intro hcontra
  have hlen := congrArg List.length hcontra
  rw [List.length_replicate] at hlen
  exact absurd hlen (by decide)

/-- C9 (amended): no provider failure propagates past the vector layer — the
incremental updater's embed returns the 1024-dim zero vector, while the
hybrid searcher's embed returns the empty list, which the caller turns into
an all-zero score vector when the query embedding failed and into
similarity 0 for each document whose own call failed; with a failed query
embedding the fused scores degrade to the weighted BM25 scores alone, so the
search completes with the lexical scores intact. -/
theorem provider_failure_degrades (cos : List ℚ → List ℚ → ℚ)
    (bm25_weight vector_weight : ℚ) (bm25_scores : List ℚ)
    (docResps : List (Option (List ℚ)))
    (hlen : bm25_scores.length = docResps.length) :
    hybridVectorScores cos none docResps = List.replicate docResps.length 0 ∧
    (∀ (qv : List ℚ), qv ≠ [] → ∀ (i : Nat), docResps.get? i = some none →
      (hybridVectorScores cos (some qv) docResps).get? i = some 0) ∧
    hybridCombine bm25_weight vector_weight bm25_scores
        (hybridVectorScores cos none docResps) =
      (bm25Normalize bm25_scores).map (fun a => bm25_weight * a) := by
  have h₁ : hybridVectorScores cos none docResps = List.replicate docResps.length 0 := rfl
  refine ⟨h₁, ?_, ?_⟩
  · intro qv hqv i hi
    have hne : (get_embedding_hybrid (some qv)).isEmpty = false := by
      cases qv with
      | nil => exact absurd rfl hqv
      | cons a as => rfl
    simp only [hybridVectorScores, hne, Bool.false_eq_true, if_false]
    rw [List.get?_map, hi]
    rfl
  · rw [h₁]
    unfold hybridCombine fuseScores
    rw [vectorNormalizeHybrid_zeros]
    rw [zipWith_replicate_right _ _ _ _ (by rw [bm25Normalize_length]; exact hlen)]
    apply List.map_congr_left
    intro a ha
    rw [mul_zero, add_zero]

/-- Witness for C9: with both document embedding calls failing and the query
embedding failing, the fused scores are exactly the weighted BM25 scores. -/
theorem provider_failure_degrades_witness :
    hybridCombine (3 : ℚ) 7 [2, 1]
        (hybridVectorScores (fun _ _ => 0) none [none, none]) =
      (bm25Normalize [2, 1]).map (fun a => (3 : ℚ) * a) :=
  (provider_failure_degrades (fun _ _ => 0) 3 7 [2, 1] [none, none] (by decide)).2.2

/-! ## C10 — lexical-model loader duck-typing
(`SelfMemorySearcher.load_index`, mem0_bridge_enhanced.py lines 94-109) -/

/-- The possible shapes of an unpickled `bm25_index.pkl`: the dict written
by `IndexBuilder.save_index` (keys `bm25` and `tokenized_corpus`; a Python
dict instance exposes no `get_scores` attribute) or a bare `BM25Okapi`
object (which has a `get_scores` method) as written by the incremental
updater and by `_save_bm25` itself. -/
inductive LoadedBm25
  | dictArtifact (tokenized : List (List String))
  | okapiArtifact (corpus : List (List String))
deriving Repr, DecidableEq

/-- Python `hasattr(loaded, 'get_scores')` on the unpickled object. -/
def hasGetScoresAttr : LoadedBm25 → Bool
  | .okapiArtifact _ => true
  | .dictArtifact _ => false

/-- Outcome of the loader: the in-memory model, whether it silently rebuilt,
and what `_save_bm25` overwrote the pickle artifact with (if anything). -/
structure LoadOutcome where
  bm25 : LoadedBm25
  rebuilt : Bool
  overwritten : Option LoadedBm25
deriving Repr, DecidableEq

/-- `SelfMemorySearcher.load_index`: accept any unpickled object exposing
`get_scores`; otherwise rebuild `BM25Okapi` over the corpus re-tokenized
from documents.json (line 92: content only) and overwrite the pickle. -/
def load_bm25 (docs : List Doc) (artifact : LoadedBm25) : LoadOutcome :=
  if hasGetScoresAttr artifact then
    { bm25 := artifact, rebuilt := false, overwritten := none }
  else
    { bm25 := .okapiArtifact (docs.map (fun d => tokenize d.content))
      rebuilt := true
      overwritten := some (.okapiArtifact (docs.map (fun d => tokenize d.content))) }

/-- The pickle written by the full build (build_index.py lines 134-141): a
dict holding the model and the tokenized corpus. -/
def buildBm25Artifact (tokenized : List (List String)) : LoadedBm25 :=
  .dictArtifact tokenized

/-- The pickle written by the incremental updater (incremental_update.py
lines 220-221): the bare model object. -/
def incrementalBm25Artifact (tokenized : List (List String)) : LoadedBm25 :=
  .okapiArtifact tokenized

/-- C10: the loader accepts any unpickled object exposing `get_scores` and
otherwise silently rebuilds from documents.json and overwrites the pickle;
since the full build writes a dict (no `get_scores`) and the incremental
update writes a bare model object (has `get_scores`), the loader rejects and
rebuilds every full-build artifact and accepts every incremental one. -/
theorem loader_rejects_build_accepts_incremental (docs : List Doc)
    (tokenized corpus : List (List String)) (a : LoadedBm25) :
    (hasGetScoresAttr a = true →
      load_bm25 docs a = { bm25 := a, rebuilt := false, overwritten := none }) ∧
    (hasGetScoresAttr a = false →
      load_bm25 docs a =
        { bm25 := .okapiArtifact (docs.map (fun d => tokenize d.content))
          rebuilt := true
          overwritten := some (.okapiArtifact (docs.map (fun d => tokenize d.content))) }) ∧
    hasGetScoresAttr (buildBm25Artifact tokenized) = false ∧
    hasGetScoresAttr (incrementalBm25Artifact corpus) = true ∧
    (load_bm25 docs (buildBm25Artifact tokenized)).rebuilt = true ∧
    (load_bm25 docs (incrementalBm25Artifact corpus)).rebuilt = false ∧
    (load_bm25 docs (incrementalBm25Artifact corpus)).bm25 =
      incrementalBm25Artifact corpus := by
  refine ⟨fun h => by simp [load_bm25, h], fun h => by simp [load_bm25, h],
    rfl, rfl, rfl, rfl, rfl⟩

/-- Witness for C10: with one document and the two artifact shapes, the
loader rebuilds the full-build dict artifact and accepts the incremental
bare artifact unchanged. -/
theorem loader_rejects_build_accepts_incremental_witness :
    load_bm25 [] (incrementalBm25Artifact [["memory"]]) =
      { bm25 := incrementalBm25Artifact [["memory"]], rebuilt := false
        overwritten := none } :=
  (loader_rejects_build_accepts_incremental [] [] [["memory"]]
    (incrementalBm25Artifact [["memory"]])).1 rfl

end HybridMemory
